import Mathlib

set_option maxRecDepth 65536

/-!
Verification of the source-anchored region extractor
(`extract_class_block` in `scripts/03_build_cases_from_repo.py`)
and the record builder in `main` of the same script.

Conventions of the embedding:
- Python `text.splitlines()` is modelled by `splitlines` below, handling the
  line terminators `\n`, `\r\n` and `\r` (the ASCII terminators that occur in
  the repository's inputs).
- Python's regular expression `\b(class|interface|enum)\s+<name>\b` (with the
  name inserted via `re.escape`, hence literally) is modelled by `headerMatch`,
  with `\w` taken as ASCII alphanumerics plus underscore and `\s` as ASCII
  whitespace.
- Python list slicing `l[lo:hi]` (with non-negative clamped bounds) is
  `pySlice`.
- Machine integers are `Int`/`Nat`; the brace depth is an `Int` exactly as the
  Python `depth` variable is an unbounded int.
- In character and string literals, `\x7b` is the opening curly brace and
  `\x7d` is the closing curly brace.
-/

/-- Python `str.splitlines` worker: consumes the character list, accumulating
the current line (in reverse) in `acc`; a trailing terminator produces no
phantom empty final line. -/
def splitlinesAux : List Char → List Char → List String
  | [], acc => if acc.isEmpty then [] else [String.mk acc.reverse]
  | '\r' :: '\n' :: rest, acc => String.mk acc.reverse :: splitlinesAux rest []
  | '\r' :: rest, acc => String.mk acc.reverse :: splitlinesAux rest []
  | '\n' :: rest, acc => String.mk acc.reverse :: splitlinesAux rest []
  | c :: rest, acc => splitlinesAux rest (c :: acc)

/-- Model of `text.splitlines()` from the source (`lines = text.splitlines()`). -/
def splitlines (text : String) : List String :=
  splitlinesAux text.data []

/-- Worker for `class_name.split(".")[-1]`: keeps the segment after the last
dot (the segment accumulator is reset at every dot). -/
def simpleNameAux : List Char → List Char → String
  | [], acc => String.mk acc.reverse
  | '.' :: rest, _ => simpleNameAux rest []
  | c :: rest, acc => simpleNameAux rest (c :: acc)

/-- Model of `simple_name = class_name.split(".")[-1]` from the source. -/
def simpleName (class_name : String) : String :=
  simpleNameAux class_name.data []

/-- ASCII model of the regex word class `\w`. -/
def isWordChar (c : Char) : Bool :=
  c.isAlphanum || c = '_'

/-- ASCII model of the regex whitespace class `\s`. -/
def isSpaceChar (c : Char) : Bool :=
  c = ' ' || c = '\t' || c = '\n' || c = '\r' || c = '\x0b' || c = '\x0c'

/-- Regex word boundary `\b` between a left character (`none` = string edge)
and a right character (`none` = string edge): exactly one side is a word
character. -/
def wordBoundary (left right : Option Char) : Bool :=
  (match left with | none => false | some c => isWordChar c)
    != (match right with | none => false | some c => isWordChar c)

/-- Strips `p` as a literal required initial run of `cs`; returns the rest. -/
def stripRun : List Char → List Char → Option (List Char)
  | [], cs => some cs
  | _ :: _, [] => none
  | p :: ps, c :: cs => if c = p then stripRun ps cs else none

/-- Matches the literal `name` followed by `\b`, given the character `prevc`
immediately before this position. -/
def nameThenBoundary (prevc : Char) : List Char → List Char → Bool
  | [], cs => wordBoundary (some prevc) cs.head?
  | _ :: _, [] => false
  | p :: ps, c :: cs => c = p && nameThenBoundary c ps cs

/-- After at least one whitespace character has been consumed (the last one
being `prevc`), match `name\b` here or consume further whitespace (`\s+` with
backtracking: a match exists iff it exists for some run length). -/
def wsRunThenName (name : List Char) : Char → List Char → Bool
  | prevc, cs =>
    nameThenBoundary prevc name cs ||
      (match cs with
       | [] => false
       | c :: rest => isSpaceChar c && wsRunThenName name c rest)

/-- Tries one alternation branch: the literal keyword `kw`, then `\s+`, then
the literal `name`, then `\b`. -/
def keywordBranch (kw name cs : List Char) : Bool :=
  match stripRun kw cs with
  | none => false
  | some rest =>
    match rest with
    | [] => false
    | c :: rest2 => isSpaceChar c && wsRunThenName name c rest2

/-- Does `\b(class|interface|enum)\s+name\b` match starting exactly here?
`prev` is the character before this position (`none` at the start of the
line); every keyword starts with a word character, so `\b` holds iff `prev`
is absent or not a word character. -/
def headerHere (name : List Char) (prev : Option Char) (cs : List Char) : Bool :=
  (match prev with | none => true | some c => !isWordChar c) &&
    (keywordBranch "class".data name cs ||
     keywordBranch "interface".data name cs ||
     keywordBranch "enum".data name cs)

/-- Model of `re.search` over the line: the pattern matches at some position. -/
def headerSearch (name : List Char) : Option Char → List Char → Bool
  | prev, cs =>
    headerHere name prev cs ||
      (match cs with
       | [] => false
       | c :: rest => headerSearch name (some c) rest)

/-- Model of `header_pat.search(line)` from the source, where
`header_pat = re.compile(rf"\b(class|interface|enum)\s+\x7bre.escape(simple_name)\x7d\b")`. -/
def headerMatch (simple_name line : String) : Bool :=
  headerSearch simple_name.data none line.data

/-- Python slice `l[lo:hi]` for non-negative bounds (both ends clamped). -/
def pySlice {α : Type} (l : List α) (lo hi : Nat) : List α :=
  (l.take hi).drop lo

/-- First index `i` (counting from the given offset) whose line satisfies
`p`, scanning in ascending order; models the
`for i in ...: if header_pat.search(lines[i]): ... break` loops. -/
def firstMatchFrom (p : String → Bool) : List String → Nat → Option Nat
  | [], _ => none
  | l :: ls, i => if p l then some i else firstMatchFrom p ls (i + 1)

/-- The header search of the source: first the local window
`range(max(0, start_idx - 5), min(n, start_idx + 10))`, then, on a miss, the
whole file from index 0. -/
def find_header (lines : List String) (start_idx : Nat) (simple : String) : Option Nat :=
  let p := headerMatch simple
  let lo := start_idx - 5
  let hi := min lines.length (start_idx + 10)
  match firstMatchFrom p (pySlice lines lo hi) lo with
  | some i => some i
  | none => firstMatchFrom p lines 0

/-- One character step of the brace scanner: `\x7b` does `depth += 1` and
sets `opened`; `\x7d` does `depth -= 1`; all other characters are ignored. -/
def braceStep (st : Int × Bool) (c : Char) : Int × Bool :=
  if c = '\x7b' then (st.1 + 1, true)
  else if c = '\x7d' then (st.1 - 1, st.2)
  else st

/-- Scans one line left to right; returns the state at the stopping point and
whether the stop condition (`ch == "\x7d"` and `opened` and `depth == 0` after
the decrement) fired on this line.  On firing, no later character of the line
is examined (the inner `break` of the source). -/
def lineScan : Int × Bool → List Char → (Int × Bool) × Bool
  | st, [] => (st, false)
  | st, c :: cs =>
    let st2 := braceStep st c
    if c = '\x7d' && st2.2 && st2.1 == 0 then (st2, true)
    else lineScan st2 cs

/-- The line loop of the brace matcher, carrying the scanner state across
lines; `i` is the absolute index of the first line of `ls`. -/
def findEndAux : Int × Bool → List String → Nat → Option Nat
  | _, [], _ => none
  | st, l :: ls, i =>
    let r := lineScan st l.data
    if r.2 then some i else findEndAux r.1 ls (i + 1)

/-- Model of the `end_idx` computation of the source: brace-match forward from the header
line with `depth = 0`, `opened = False`. -/
def find_end (lines : List String) (header_idx : Nat) : Option Nat :=
  findEndAux (0, false) (lines.drop header_idx) header_idx

/-- The extractor, returning the list of excerpt lines (the source returns
`"\n".join(...)` of exactly this list; see `extract_class_block`).
Python's `loc_limit` default is 400. -/
def extractLines (text : String) (start_line : Int) (class_name : String)
    (loc_limit : Nat) : List String :=
  let lines := splitlines text
  let n := lines.length
  if start_line < 1 ∨ start_line > (n : Int) then lines.take loc_limit
  else
    let start_idx := (start_line - 1).toNat
    let simple := simpleName class_name
    match find_header lines start_idx simple with
    | none =>
      let lo := start_idx - 5
      let hi := min n (lo + loc_limit)
      pySlice lines lo hi
    | some header_idx =>
      match find_end lines header_idx with
      | none =>
        let lo := header_idx
        let hi := min n (lo + loc_limit)
        pySlice lines lo hi
      | some end_idx =>
        let excerpt := pySlice lines header_idx (end_idx + 1)
        if loc_limit < excerpt.length then excerpt.take loc_limit else excerpt

/-- Model of `extract_class_block(text, start_line, class_name, loc_limit)` from the
source. -/
def extract_class_block (text : String) (start_line : Int) (class_name : String)
    (loc_limit : Nat) : String :=
  "\n".intercalate (extractLines text start_line class_name loc_limit)

/-- The four terminal control-flow paths of `extract_class_block`. -/
inductive ExtractPath : Type
  | outOfRange
  | headerNotFound
  | braceFallback
  | exactMatch
deriving DecidableEq, Repr

/-- Which of the four paths `extract_class_block` takes on a given input;
mirrors the branch structure of the source verbatim. -/
def extractPath (text : String) (start_line : Int) (class_name : String) :
    ExtractPath :=
  let lines := splitlines text
  let n := lines.length
  if start_line < 1 ∨ start_line > (n : Int) then ExtractPath.outOfRange
  else
    match find_header lines ((start_line - 1).toNat) (simpleName class_name) with
    | none => ExtractPath.headerNotFound
    | some header_idx =>
      match find_end lines header_idx with
      | none => ExtractPath.braceFallback
      | some _ => ExtractPath.exactMatch

/-- The output record assembled in `main` (the JSON-valued `metrics` field is
omitted; all other fields are carried verbatim).  The source sets
`excerpt_strategy` to the literal `"line_based_class_block"`. -/
structure CaseObj : Type where
  case_id : String
  project : String
  file_path : String
  package : String
  class_name : String
  smell_type : String
  detector_reason : String
  code_excerpt : String
  excerpt_strategy : String
deriving DecidableEq, Repr

/-- The `obj = \x7b ... \x7d` construction of `main`, per input row. -/
def mkCaseObj (case_id project file_path package class_name smell_type
    detector_reason : String) (text : String) (start_line : Int)
    (loc_limit : Nat) : CaseObj :=
  ⟨case_id, project, file_path, package, class_name, smell_type,
    detector_reason,
    extract_class_block text start_line class_name loc_limit,
    "line_based_class_block"⟩

/-- Folding the brace scanner over a character list (the spec's view of the
matcher as a two-variable state machine over raw characters). -/
def scanChars (st : Int × Bool) (cs : List Char) : Int × Bool :=
  cs.foldl braceStep st

/-- Folding the brace scanner over whole lines. -/
def linesState (st : Int × Bool) (ls : List String) : Int × Bool :=
  ls.foldl (fun s l => scanChars s l.data) st

/-- Spec-side stop condition on one line, started in state `st`: some
closing brace of the line is reached with `depth` exactly 1 and `opened`
true just before it (so the decrement brings `depth` to exactly 0 while
`opened` holds).  Characters after that closing brace are irrelevant. -/
def triggersFrom (st : Int × Bool) (cs : List Char) : Prop :=
  ∃ p q, cs = p ++ '\x7d' :: q ∧ (scanChars st p).1 = 1 ∧ (scanChars st p).2 = true

/-- Stop condition of line `k` of `ls` (0-based, relative), with the state
obtained by fully scanning the `k` preceding lines from `st`. -/
def triggersRel (st : Int × Bool) (ls : List String) (k : Nat) : Prop :=
  triggersFrom (linesState st (ls.take k)) ((ls.getD k "").data)

/-- Scanner state just before line `e`, having scanned lines
`header_idx .. e-1` from the initial state. -/
def braceStateBefore (lines : List String) (header_idx e : Nat) : Int × Bool :=
  linesState (0, false) (pySlice lines header_idx e)

/-- Spec-side: line `e` is where a closing brace first brings the depth to
exactly 0 with `opened` true, for the scan started at `header_idx`. -/
def closesAt (lines : List String) (header_idx e : Nat) : Prop :=
  triggersFrom (braceStateBefore lines header_idx e) ((lines.getD e "").data)

/-- Spec-side: line `i` of the file matches the header pattern. -/
def matchesHeaderAt (lines : List String) (simple : String) (i : Nat) : Prop :=
  headerMatch simple (lines.getD i "") = true

/-- A 20-line file: `class Foo \x7b` on line 10 (1-based), the matching
`\x7d` alone on line 18. -/
def fooLines : List String :=
  ["package p;", "", "import x;", "", "// intro", "", "public final", "",
   "/* doc */", "class Foo \x7b", "  int a;", "  void m() \x7b", "    a = 1;",
   "  \x7d", "  // note", "  int b;", "", "\x7d", "// tail", "// end"]

/-- The 20-line file as raw text. -/
def fooText : String := "\n".intercalate fooLines

/-- A 50-line file with no type header at all. -/
def fiftyLines : List String := List.replicate 50 "x();"

/-- The 50-line file as raw text. -/
def fiftyText : String := "\n".intercalate fiftyLines

/-- A small file with no line matching any header pattern. -/
def plainLines : List String := ["int a;", "int b;", "int c;"]

/-- The small header-free file as raw text. -/
def plainText : String := "\n".intercalate plainLines

/-- A 52-line file whose only header, `class Bar \x7b`, is on line 50
(1-based, index 49). -/
def barLines : List String :=
  List.replicate 49 "x();" ++ ["class Bar \x7b", "  int y;", "\x7d"]

/-- The `Bar` file as raw text. -/
def barText : String := "\n".intercalate barLines


/-! ### Basic lemmas about the embedded building blocks -/

theorem splitlinesAux_ne_nil :
    ∀ (cs acc : List Char), (cs = [] → acc ≠ []) → splitlinesAux cs acc ≠ [] := by
  intro cs acc
  induction cs, acc using splitlinesAux.induct
  all_goals intro h
  all_goals simp_all [splitlinesAux]

theorem splitlines_ne_nil (text : String) (h : text ≠ "") : splitlines text ≠ [] := by
  apply splitlinesAux_ne_nil
  intro hdata
  exact absurd (by cases text; simp_all) h

theorem if_length_take (l : List String) (n : Nat) :
    (if n < l.length then l.take n else l) = l.take n := by
  split
  · rfl
  · rw [List.take_of_length_le (by omega)]

theorem length_pySlice {α : Type} (l : List α) (lo hi : Nat) :
    (pySlice l lo hi).length = min hi l.length - lo := by
  simp [pySlice]

theorem pySlice_eq_drop_take {α : Type} (l : List α) (lo hi : Nat) :
    pySlice l lo hi = (l.drop lo).take (hi - lo) := by
  simp [pySlice, List.drop_take]

theorem pySlice_min_length {α : Type} (l : List α) (lo hi : Nat) :
    pySlice l lo (min l.length hi) = pySlice l lo hi := by
  unfold pySlice
  congr 1
  rw [List.take_eq_take]
  omega

theorem getD_drop (l : List String) (i k : Nat) :
    (l.drop i).getD k "" = l.getD (i + k) "" := by
  rcases Nat.lt_or_ge (i + k) l.length with hlt | hge
  · have hk : k < (l.drop i).length := by simp; omega
    rw [List.getD_eq_getElem _ _ hk, List.getD_eq_getElem _ _ hlt]
    exact List.getElem_drop l
  · rw [List.getD_eq_default _ _ (by simp; omega), List.getD_eq_default _ _ hge]

theorem pySlice_getD (l : List String) (lo hi k : Nat)
    (h1 : lo + k < hi) (h2 : lo + k < l.length) :
    (pySlice l lo hi).getD k "" = l.getD (lo + k) "" := by
  have hk : k < (pySlice l lo hi).length := by rw [length_pySlice]; omega
  rw [List.getD_eq_getElem _ _ hk, List.getD_eq_getElem _ _ h2]
  simp only [pySlice]
  rw [List.getElem_drop, List.getElem_take]

theorem mem_pySlice {α : Type} {x : α} {l : List α} {lo hi : Nat}
    (h : x ∈ pySlice l lo hi) : x ∈ l :=
  List.mem_of_mem_take (List.mem_of_mem_drop h)

/-! ### `firstMatchFrom` characterization -/

theorem firstMatchFrom_eq_some (p : String → Bool) :
    ∀ (ls : List String) (i j : Nat),
      firstMatchFrom p ls i = some j ↔
        (i ≤ j ∧ j - i < ls.length ∧ p (ls.getD (j - i) "") = true ∧
          ∀ k, k < j - i → p (ls.getD k "") = false) := by
  intro ls
  induction ls with
  | nil => intro i j; simp [firstMatchFrom]
  | cons l ls ih =>
    intro i j
    by_cases hp : p l = true
    · have hif : firstMatchFrom p (l :: ls) i = some i := by
        simp [firstMatchFrom, hp]
      rw [hif]
      constructor
      · rintro h
        injection h with h
        subst h
        exact ⟨Nat.le_refl _, by simp, by simpa, by omega⟩
      · rintro ⟨hij, -, -, hmin⟩
        by_contra hne
        have hlt : 0 < j - i := by
          rcases Nat.lt_or_ge i j with h | h
          · omega
          · exact absurd (congrArg some (by omega : i = j)) (by simpa using hne)
        have := hmin 0 hlt
        simp [hp] at this
    · have hp' : p l = false := by simpa using hp
      have hif : firstMatchFrom p (l :: ls) i = firstMatchFrom p ls (i + 1) := by
        simp [firstMatchFrom, hp']
      rw [hif, ih (i + 1) j]
      constructor
      · rintro ⟨h1, h2, h3, h4⟩
        refine ⟨by omega, by simp; omega, ?_, ?_⟩
        · have he : j - i = (j - (i + 1)) + 1 := by omega
          rw [he]
          simpa using h3
        · intro k hk
          cases k with
          | zero => simpa using hp'
          | succ k =>
            have := h4 k (by omega)
            simpa using this
      · rintro ⟨h1, h2, h3, h4⟩
        have hij : i < j := by
          rcases Nat.lt_or_ge i j with h | h
          · exact h
          · have hji : j - i = 0 := by omega
            rw [hji] at h3
            simp [hp'] at h3
        refine ⟨by omega, by simp at h2; omega, ?_, ?_⟩
        · have he : j - (i + 1) = (j - i) - 1 := by omega
          have he2 : j - i = (j - (i + 1)) + 1 := by omega
          rw [he2] at h3
          simpa using h3
        · intro k hk
          have := h4 (k + 1) (by omega)
          simpa using this

theorem firstMatchFrom_eq_none (p : String → Bool) :
    ∀ (ls : List String) (i : Nat),
      firstMatchFrom p ls i = none ↔ ∀ l ∈ ls, p l = false := by
  intro ls
  induction ls with
  | nil => intro i; simp [firstMatchFrom]
  | cons l ls ih =>
    intro i
    by_cases hp : p l = true
    · simp [firstMatchFrom, hp]
    · have hp' : p l = false := by simpa using hp
      simp [firstMatchFrom, hp', ih (i + 1)]

/-! ### `find_header` characterization -/


theorem find_header_eq_some (lines : List String) (a : Nat) (s : String) (i : Nat) :
    find_header lines a s = some i ↔
      ((a - 5 ≤ i ∧ i < min lines.length (a + 10) ∧ matchesHeaderAt lines s i ∧
          ∀ j, a - 5 ≤ j → j < i → ¬ matchesHeaderAt lines s j)
        ∨ ((∀ j, a - 5 ≤ j → j < min lines.length (a + 10) → ¬ matchesHeaderAt lines s j) ∧
            i < lines.length ∧ matchesHeaderAt lines s i ∧
            ∀ j, j < i → ¬ matchesHeaderAt lines s j)) := by
  have hhi : min lines.length (a + 10) ≤ lines.length := Nat.min_le_left _ _
  rcases hw : firstMatchFrom (headerMatch s)
      (pySlice lines (a - 5) (min lines.length (a + 10))) (a - 5) with _ | w
  · have hfh : find_header lines a s = firstMatchFrom (headerMatch s) lines 0 := by
      simp [find_header, hw]
    have hnw : ∀ j, a - 5 ≤ j → j < min lines.length (a + 10) →
        ¬ matchesHeaderAt lines s j := by
      rw [firstMatchFrom_eq_none] at hw
      intro j hj1 hj2 hm
      have hk : j - (a - 5) <
          (pySlice lines (a - 5) (min lines.length (a + 10))).length := by
        rw [length_pySlice]; omega
      have hgd := pySlice_getD lines (a - 5) (min lines.length (a + 10))
        (j - (a - 5)) (by omega) (by omega)
      rw [Nat.add_sub_cancel' hj1] at hgd
      have hmem := hw _ (List.getElem_mem hk)
      rw [← List.getD_eq_getElem _ "" hk, hgd] at hmem
      rw [matchesHeaderAt] at hm
      rw [hm] at hmem
      simp at hmem
    rw [hfh, firstMatchFrom_eq_some]
    constructor
    · rintro ⟨-, h2, h3, h4⟩
      right
      refine ⟨hnw, by simpa using h2, ?_, ?_⟩
      · rw [matchesHeaderAt]
        simpa using h3
      · intro j hj
        have := h4 j (by omega)
        rw [matchesHeaderAt, this]
        simp
    · rintro (hL | hR)
      · exact absurd hL.2.2.1 (hnw i hL.1 hL.2.1)
      · refine ⟨Nat.zero_le _, by simpa using hR.2.1, ?_, ?_⟩
        · rw [matchesHeaderAt] at hR
          simpa using hR.2.2.1
        · intro k hk
          have := hR.2.2.2 k (by omega)
          rw [matchesHeaderAt] at this
          simpa using this
  · have hfh : find_header lines a s = some w := by
      simp [find_header, hw]
    rw [firstMatchFrom_eq_some] at hw
    obtain ⟨h1, h2, h3, h4⟩ := hw
    rw [length_pySlice] at h2
    have hwlt : w < min lines.length (a + 10) := by omega
    have hgdw := pySlice_getD lines (a - 5) (min lines.length (a + 10))
      (w - (a - 5)) (by omega) (by omega)
    rw [Nat.add_sub_cancel' h1] at hgdw
    have hmw : matchesHeaderAt lines s w := by
      rw [matchesHeaderAt, ← hgdw]
      exact h3
    have hminw : ∀ j, a - 5 ≤ j → j < w → ¬ matchesHeaderAt lines s j := by
      intro j hj1 hj2 hm
      have hgd := pySlice_getD lines (a - 5) (min lines.length (a + 10))
        (j - (a - 5)) (by omega) (by omega)
      rw [Nat.add_sub_cancel' hj1] at hgd
      have hfalse := h4 (j - (a - 5)) (by omega)
      rw [hgd] at hfalse
      rw [matchesHeaderAt] at hm
      rw [hm] at hfalse
      simp at hfalse
    rw [hfh]
    constructor
    · rintro heq
      injection heq with heq
      subst heq
      exact Or.inl ⟨h1, hwlt, hmw, hminw⟩
    · rintro (hL | hR)
      · have hwi : w = i := by
          rcases Nat.lt_trichotomy w i with h | h | h
          · exact absurd hmw (hL.2.2.2 w h1 h)
          · exact h
          · exact absurd hL.2.2.1 (hminw i hL.1 h)
        rw [hwi]
      · exact absurd hmw (hR.1 w h1 hwlt)

theorem find_header_lt_length {lines : List String} {a : Nat} {s : String} {h : Nat}
    (hfh : find_header lines a s = some h) : h < lines.length := by
  rw [find_header_eq_some] at hfh
  rcases hfh with hL | hR
  · have := hL.2.1
    omega
  · exact hR.2.1

/-! ### Brace scanner characterization -/

theorem lineScan_eq_of_not_trigger :
    ∀ (cs : List Char) (st : Int × Bool), (lineScan st cs).2 = false →
      (lineScan st cs).1 = scanChars st cs := by
  intro cs
  induction cs with
  | nil => intro st _; rfl
  | cons c cs ih =>
    intro st h
    by_cases hb : (decide (c = '\x7d') && (braceStep st c).2 && ((braceStep st c).1 == 0)) = true
    · rw [lineScan] at h
      simp only [hb, if_true] at h
      exact Bool.noConfusion h
    · have hscan : lineScan st (c :: cs) = lineScan (braceStep st c) cs := by
        rw [lineScan]
        simp only [hb, if_false, Bool.false_eq_true]
      rw [hscan] at h ⊢
      rw [ih _ h]
      rfl

theorem lineScan_trigger_iff :
    ∀ (cs : List Char) (st : Int × Bool),
      (lineScan st cs).2 = true ↔ triggersFrom st cs := by
  intro cs
  induction cs with
  | nil =>
    intro st
    constructor
    · intro h
      simp [lineScan] at h
    · rintro ⟨p, q, hpq, -, -⟩
      exact absurd hpq (by simp)
  | cons c cs ih =>
    intro st
    by_cases hb : (decide (c = '\x7d') && (braceStep st c).2 && ((braceStep st c).1 == 0)) = true
    · have hl : (lineScan st (c :: cs)).2 = true := by
        rw [lineScan]
        simp only [hb, if_true]
      refine iff_of_true hl ?_
      simp only [Bool.and_eq_true, beq_iff_eq, decide_eq_true_eq] at hb
      obtain ⟨⟨hc, hop⟩, hdep⟩ := hb
      subst hc
      have hbs : braceStep st '\x7d' = (st.1 - 1, st.2) := by
        rw [braceStep]
        simp
      rw [hbs] at hop hdep
      refine ⟨[], cs, rfl, ?_, ?_⟩
      · show st.1 = 1
        have : st.1 - 1 = 0 := hdep
        omega
      · exact hop
    · have hscan : lineScan st (c :: cs) = lineScan (braceStep st c) cs := by
        rw [lineScan]
        simp only [hb, if_false, Bool.false_eq_true]
      rw [hscan, ih]
      constructor
      · rintro ⟨p, q, hpq, h1, h2⟩
        exact ⟨c :: p, q, by rw [hpq, List.cons_append], h1, h2⟩
      · rintro ⟨p, q, hpq, h1, h2⟩
        cases p with
        | nil =>
          simp only [List.nil_append, List.cons.injEq] at hpq
          obtain ⟨hc, hq⟩ := hpq
          exfalso
          apply hb
          subst hc
          have hbs : braceStep st '\x7d' = (st.1 - 1, st.2) := by
            rw [braceStep]
            simp
          have h1' : st.1 = 1 := h1
          have h2' : st.2 = true := h2
          rw [hbs]
          simp [h1', h2']
        | cons p0 p2 =>
          simp only [List.cons_append, List.cons.injEq] at hpq
          obtain ⟨hc, hcs⟩ := hpq
          subst hc
          exact ⟨p2, q, hcs, h1, h2⟩

theorem triggersRel_zero (st : Int × Bool) (l : String) (ls : List String) :
    triggersRel st (l :: ls) 0 ↔ triggersFrom st l.data := by
  simp [triggersRel, linesState]

theorem triggersRel_succ (st : Int × Bool) (l : String) (ls : List String) (k : Nat) :
    triggersRel st (l :: ls) (k + 1) ↔ triggersRel (scanChars st l.data) ls k := by
  simp [triggersRel, linesState, List.take_succ_cons]

theorem findEndAux_eq_some :
    ∀ (ls : List String) (st : Int × Bool) (i e : Nat),
      findEndAux st ls i = some e ↔
        (i ≤ e ∧ e - i < ls.length ∧ triggersRel st ls (e - i) ∧
          ∀ k, k < e - i → ¬ triggersRel st ls k) := by
  intro ls
  induction ls with
  | nil => intro st i e; simp [findEndAux]
  | cons l ls ih =>
    intro st i e
    by_cases hb : (lineScan st l.data).2 = true
    · have hfe : findEndAux st (l :: ls) i = some i := by
        rw [findEndAux]
        simp only [hb, if_true]
      rw [hfe]
      have htrig : triggersFrom st l.data := (lineScan_trigger_iff _ _).mp hb
      constructor
      · intro h
        injection h with h
        subst h
        refine ⟨Nat.le_refl _, by simp, ?_, by omega⟩
        rw [Nat.sub_self, triggersRel_zero]
        exact htrig
      · rintro ⟨h1, h2, h3, h4⟩
        by_cases he : e = i
        · rw [he]
        · have h0 : (0 : Nat) < e - i := by omega
          exact absurd ((triggersRel_zero st l ls).mpr htrig) (h4 0 h0)
    · have hb' : (lineScan st l.data).2 = false := by simpa using hb
      have hfe : findEndAux st (l :: ls) i = findEndAux (lineScan st l.data).1 ls (i + 1) := by
        rw [findEndAux]
        simp only [hb', if_false, Bool.false_eq_true]
      have hst : (lineScan st l.data).1 = scanChars st l.data :=
        lineScan_eq_of_not_trigger _ _ hb'
      have hnt0 : ¬ triggersRel st (l :: ls) 0 := by
        rw [triggersRel_zero]
        intro hfrom
        exact absurd ((lineScan_trigger_iff _ _).mpr hfrom) (by simp [hb'])
      rw [hfe, hst, ih]
      constructor
      · rintro ⟨h1, h2, h3, h4⟩
        refine ⟨by omega, by simp; omega, ?_, ?_⟩
        · have he2 : e - i = (e - (i + 1)) + 1 := by omega
          rw [he2, triggersRel_succ]
          exact h3
        · intro k hk
          cases k with
          | zero => exact hnt0
          | succ k =>
            rw [triggersRel_succ]
            exact h4 k (by omega)
      · rintro ⟨h1, h2, h3, h4⟩
        have hei : i < e := by
          by_contra hle
          have h0 : e - i = 0 := by omega
          rw [h0] at h3
          exact hnt0 h3
        refine ⟨by omega, by simp at h2; omega, ?_, ?_⟩
        · have he2 : e - i = (e - (i + 1)) + 1 := by omega
          rw [he2, triggersRel_succ] at h3
          exact h3
        · intro k hk
          have := h4 (k + 1) (by omega)
          rw [triggersRel_succ] at this
          exact this

theorem find_end_eq_some (lines : List String) (header_idx e : Nat) :
    find_end lines header_idx = some e ↔
      (header_idx ≤ e ∧ e < lines.length ∧ closesAt lines header_idx e ∧
        ∀ x, header_idx ≤ x → x < e → ¬ closesAt lines header_idx x) := by
  rw [find_end, findEndAux_eq_some]
  have hbr : ∀ k, triggersRel (0, false) (lines.drop header_idx) k ↔
      closesAt lines header_idx (header_idx + k) := by
    intro k
    rw [triggersRel, closesAt, braceStateBefore]
    have h1 : (lines.drop header_idx).take k = pySlice lines header_idx (header_idx + k) := by
      rw [pySlice_eq_drop_take]
      congr 1
      omega
    rw [h1, getD_drop]
  constructor
  · rintro ⟨h1, h2, h3, h4⟩
    rw [List.length_drop] at h2
    refine ⟨h1, by omega, ?_, ?_⟩
    · have := (hbr (e - header_idx)).mp h3
      rwa [Nat.add_sub_cancel' h1] at this
    · intro x hx1 hx2 hc
      apply h4 (x - header_idx) (by omega)
      rw [hbr, Nat.add_sub_cancel' hx1]
      exact hc
  · rintro ⟨h1, h2, h3, h4⟩
    refine ⟨h1, by rw [List.length_drop]; omega, ?_, ?_⟩
    · rw [hbr, Nat.add_sub_cancel' h1]
      exact h3
    · intro k hk
      rw [hbr]
      exact h4 (header_idx + k) (by omega) (by omega)

theorem find_end_bounds {lines : List String} {header_idx e : Nat}
    (hfe : find_end lines header_idx = some e) :
    header_idx ≤ e ∧ e < lines.length := by
  rw [find_end_eq_some] at hfe
  exact ⟨hfe.1, hfe.2.1⟩

/-! ### Branch equations of the extractor -/

theorem extractLines_out_of_range (text : String) (start_line : Int)
    (class_name : String) (loc_limit : Nat)
    (hout : start_line < 1 ∨ start_line > ((splitlines text).length : Int)) :
    extractLines text start_line class_name loc_limit = (splitlines text).take loc_limit := by
  simp only [extractLines]
  rw [if_pos hout]

theorem extractLines_header_none (text : String) (start_line : Int)
    (class_name : String) (loc_limit : Nat)
    (hin : ¬(start_line < 1 ∨ start_line > ((splitlines text).length : Int)))
    (hh : find_header (splitlines text) ((start_line - 1).toNat) (simpleName class_name) = none) :
    extractLines text start_line class_name loc_limit =
      pySlice (splitlines text) ((start_line - 1).toNat - 5)
        (min (splitlines text).length ((start_line - 1).toNat - 5 + loc_limit)) := by
  simp only [extractLines]
  rw [if_neg hin, hh]

theorem extractLines_end_none (text : String) (start_line : Int)
    (class_name : String) (loc_limit : Nat) (header_idx : Nat)
    (hin : ¬(start_line < 1 ∨ start_line > ((splitlines text).length : Int)))
    (hh : find_header (splitlines text) ((start_line - 1).toNat) (simpleName class_name) =
      some header_idx)
    (he : find_end (splitlines text) header_idx = none) :
    extractLines text start_line class_name loc_limit =
      pySlice (splitlines text) header_idx
        (min (splitlines text).length (header_idx + loc_limit)) := by
  simp only [extractLines]
  rw [if_neg hin, hh]
  simp only
  rw [he]

theorem extractLines_exact (text : String) (start_line : Int)
    (class_name : String) (loc_limit : Nat) (header_idx end_idx : Nat)
    (hin : ¬(start_line < 1 ∨ start_line > ((splitlines text).length : Int)))
    (hh : find_header (splitlines text) ((start_line - 1).toNat) (simpleName class_name) =
      some header_idx)
    (he : find_end (splitlines text) header_idx = some end_idx) :
    extractLines text start_line class_name loc_limit =
      (pySlice (splitlines text) header_idx (end_idx + 1)).take loc_limit := by
  simp only [extractLines]
  rw [if_neg hin, hh]
  simp only
  rw [he]
  simp only
  rw [if_length_take]

theorem in_range_facts {text : String} {start_line : Int}
    (hin : ¬(start_line < 1 ∨ start_line > ((splitlines text).length : Int))) :
    1 ≤ start_line ∧ start_line ≤ ((splitlines text).length : Int) ∧
      (start_line - 1).toNat < (splitlines text).length := by
  push_neg at hin
  omega

theorem extractLines_shape (text : String) (start_line : Int) (class_name : String)
    (loc_limit : Nat) :
    ∃ lo len, len ≤ loc_limit ∧
      extractLines text start_line class_name loc_limit =
        ((splitlines text).drop lo).take len := by
  by_cases hout : start_line < 1 ∨ start_line > ((splitlines text).length : Int)
  · refine ⟨0, loc_limit, Nat.le_refl _, ?_⟩
    rw [extractLines_out_of_range _ _ _ _ hout, List.drop_zero]
  · rcases hh : find_header (splitlines text) ((start_line - 1).toNat)
        (simpleName class_name) with _ | hidx
    · refine ⟨(start_line - 1).toNat - 5,
        min (splitlines text).length ((start_line - 1).toNat - 5 + loc_limit) -
          ((start_line - 1).toNat - 5), by omega, ?_⟩
      rw [extractLines_header_none _ _ _ _ hout hh, pySlice_eq_drop_take]
    · rcases he : find_end (splitlines text) hidx with _ | eidx
      · refine ⟨hidx, min (splitlines text).length (hidx + loc_limit) - hidx, by omega, ?_⟩
        rw [extractLines_end_none _ _ _ _ _ hout hh he, pySlice_eq_drop_take]
      · refine ⟨hidx, min loc_limit (eidx + 1 - hidx), Nat.min_le_left _ _, ?_⟩
        rw [extractLines_exact _ _ _ _ _ _ hout hh he, pySlice_eq_drop_take, List.take_take]

theorem drop_take_pySlice {α : Type} (l : List α) (lo len : Nat) :
    ∃ i j, i ≤ j ∧ j ≤ l.length ∧ (l.drop lo).take len = pySlice l i j := by
  by_cases hle : lo ≤ l.length
  · refine ⟨lo, min (lo + len) l.length, by omega, by omega, ?_⟩
    rw [pySlice_eq_drop_take, List.take_eq_take]
    simp only [List.length_drop]
    omega
  · refine ⟨l.length, l.length, Nat.le_refl _, Nat.le_refl _, ?_⟩
    rw [List.drop_eq_nil_of_le (by omega), pySlice_eq_drop_take,
      List.drop_eq_nil_of_le (by omega)]
    simp


theorem find_header_eq_none (lines : List String) (a : Nat) (s : String)
    (h : ∀ l ∈ lines, headerMatch s l = false) : find_header lines a s = none := by
  have hwin : firstMatchFrom (headerMatch s)
      (pySlice lines (a - 5) (min lines.length (a + 10))) (a - 5) = none :=
    (firstMatchFrom_eq_none _ _ _).mpr (fun l hl => h l (mem_pySlice hl))
  have hglob : firstMatchFrom (headerMatch s) lines 0 = none :=
    (firstMatchFrom_eq_none _ _ _).mpr h
  simp [find_header, hwin, hglob]

/-! ### The claims -/

/-- C1: Exact-match path (State D): whenever the reported line is in range,
the header locator returns a header line and the brace matcher returns a
closing line, the extractor returns the newline-join of the lines from the
header line to the closing line inclusive, truncated to the first
`loc_limit` lines. -/
theorem C1_exact_match_path (text : String) (start_line : Int) (class_name : String)
    (loc_limit : Nat) (header_idx end_idx : Nat)
    (hin : 1 ≤ start_line ∧ start_line ≤ ((splitlines text).length : Int))
    (hh : find_header (splitlines text) ((start_line - 1).toNat) (simpleName class_name) =
      some header_idx)
    (he : find_end (splitlines text) header_idx = some end_idx) :
    extract_class_block text start_line class_name loc_limit =
      "\n".intercalate ((pySlice (splitlines text) header_idx (end_idx + 1)).take loc_limit) := by
  rw [extract_class_block, extractLines_exact _ _ _ _ _ _ (by omega) hh he]

/-- C1 witness: the 20-line scenario (`class Foo \x7b` on line 10, matching
`\x7d` alone on line 18, reported line 12): the excerpt is lines 10-18. -/
theorem C1_exact_match_witness :
    extract_class_block fooText 12 "Foo" 400 =
      "\n".intercalate ((pySlice (splitlines fooText) 9 (17 + 1)).take 400) :=
  C1_exact_match_path fooText 12 "Foo" 400 9 17 (by decide) (by decide) (by decide)

/-- C2: Brace-depth matcher semantics: `find_end` returns exactly the first
line, at or after the header line, on which a closing brace brings the depth
to exactly 0 with `opened` true (state threaded across lines, characters
after the closing brace ignored); and braces inside string literals are
counted like any other character (second conjunct: the closing brace sits
inside a Java string literal). -/
theorem C2_brace_matcher_semantics :
    (∀ (lines : List String) (header_idx e : Nat),
      find_end lines header_idx = some e ↔
        (header_idx ≤ e ∧ e < lines.length ∧ closesAt lines header_idx e ∧
          ∀ x, header_idx ≤ x → x < e → ¬ closesAt lines header_idx x)) ∧
    find_end ["class A \x7b", "String s = \"\x7d\";", "\x7d"] 0 = some 1 :=
  ⟨find_end_eq_some, by decide⟩

/-- C3: Header search order: `find_header` returns the first match of the
ascending scan of the local window `[max(0, anchor-5), min(n, anchor+10))`,
and only when the window has no match the first match of the whole-file
scan; in the `Bar` scenario (header on line 50, reported line 1) the header
is found by the whole-file scan and the excerpt starts at line 50. -/
theorem C3_header_search_order :
    (∀ (lines : List String) (a : Nat) (s : String) (i : Nat),
      find_header lines a s = some i ↔
        ((a - 5 ≤ i ∧ i < min lines.length (a + 10) ∧ matchesHeaderAt lines s i ∧
            ∀ j, a - 5 ≤ j → j < i → ¬ matchesHeaderAt lines s j)
          ∨ ((∀ j, a - 5 ≤ j → j < min lines.length (a + 10) →
                ¬ matchesHeaderAt lines s j) ∧
              i < lines.length ∧ matchesHeaderAt lines s i ∧
              ∀ j, j < i → ¬ matchesHeaderAt lines s j))) ∧
    find_header (splitlines barText) 0 "Bar" = some 49 ∧
    extractLines barText 1 "Bar" 400 = ["class Bar \x7b", "  int y;", "\x7d"] :=
  ⟨find_header_eq_some, by decide, by decide⟩

/-- C4: Header pattern and simple-name matching: only the last dot-separated
segment of `type_name` is matched, as a separate word after one of the
keywords `class`, `interface`, `enum`; `Outer.Inner` matches a header
declaring `Inner` and not one declaring `Outer`, and `class FooBar` does not
match `type_name = "Foo"`. -/
theorem C4_simple_name_word_boundary :
    simpleName "Outer.Inner" = "Inner" ∧
    headerMatch (simpleName "Outer.Inner") "class Inner \x7b" = true ∧
    headerMatch (simpleName "Outer.Inner") "class Outer \x7b" = false ∧
    headerMatch (simpleName "Foo") "class FooBar \x7b" = false ∧
    headerMatch (simpleName "Foo") "public class Foo \x7b" = true ∧
    headerMatch (simpleName "Foo") "interface Foo" = true ∧
    headerMatch (simpleName "Foo") "enum Foo \x7b" = true ∧
    headerMatch (simpleName "Foo") "subclass Foo \x7b" = false := by
  decide

/-- C5: Out-of-range fallback (State A): for every text and every reported
line outside `[1, line_count]`, the extractor returns the newline-join of
the first `loc_limit` lines of the file, regardless of the type name. -/
theorem C5_out_of_range_fallback (text : String) (start_line : Int) (class_name : String)
    (loc_limit : Nat)
    (hout : start_line < 1 ∨ start_line > ((splitlines text).length : Int)) :
    extract_class_block text start_line class_name loc_limit =
      "\n".intercalate ((splitlines text).take loc_limit) := by
  rw [extract_class_block, extractLines_out_of_range _ _ _ _ hout]

/-- C5 witness: reported line 9999 on a 50-line file yields the whole file
(fewer than 400 lines). -/
theorem C5_out_of_range_witness :
    extract_class_block fiftyText 9999 "Whatever" 400 =
      "\n".intercalate ((splitlines fiftyText).take 400) :=
  C5_out_of_range_fallback fiftyText 9999 "Whatever" 400 (by decide)

/-- C6: Header-not-found fallback (State B): when the reported line is in
range but no line of the file matches the header pattern for the simple
type name, the extractor returns the newline-join of
`lines[max(0, anchor-5) : max(0, anchor-5) + loc_limit]` with
`anchor = reported_line - 1`. -/
theorem C6_header_not_found_fallback (text : String) (start_line : Int)
    (class_name : String) (loc_limit : Nat)
    (hin : 1 ≤ start_line ∧ start_line ≤ ((splitlines text).length : Int))
    (hnone : ∀ l ∈ splitlines text, headerMatch (simpleName class_name) l = false) :
    extract_class_block text start_line class_name loc_limit =
      "\n".intercalate (pySlice (splitlines text) ((start_line - 1).toNat - 5)
        ((start_line - 1).toNat - 5 + loc_limit)) := by
  have hfh : find_header (splitlines text) ((start_line - 1).toNat)
      (simpleName class_name) = none :=
    find_header_eq_none _ _ _ hnone
  rw [extract_class_block, extractLines_header_none _ _ _ _ (by omega) hfh,
    pySlice_min_length]

/-- C6 witness: a three-line file with no type declaration at all, reported
line 2: the excerpt is the positional window anchored at `anchor - 5`. -/
theorem C6_header_not_found_witness :
    extract_class_block plainText 2 "Foo" 400 =
      "\n".intercalate (pySlice (splitlines plainText) (((2 : Int) - 1).toNat - 5)
        (((2 : Int) - 1).toNat - 5 + 400)) :=
  C6_header_not_found_fallback plainText 2 "Foo" 400 (by decide) (by decide)

/-- C7: Boundedness and non-emptiness: with `loc_limit ≥ 1` the excerpt has
at most `loc_limit` lines, and at least one line whenever the input text is
non-empty. -/
theorem C7_bounded_nonempty (text : String) (start_line : Int) (class_name : String)
    (loc_limit : Nat) (hll : 1 ≤ loc_limit) :
    (extractLines text start_line class_name loc_limit).length ≤ loc_limit ∧
      (text ≠ "" → 1 ≤ (extractLines text start_line class_name loc_limit).length) := by
  by_cases hout : start_line < 1 ∨ start_line > ((splitlines text).length : Int)
  · rw [extractLines_out_of_range _ _ _ _ hout, List.length_take]
    refine ⟨by omega, fun hne => ?_⟩
    have hnn : splitlines text ≠ [] := splitlines_ne_nil text hne
    have hpos : 0 < (splitlines text).length := List.length_pos.mpr hnn
    omega
  · obtain ⟨hin1, hin2, hidxlt⟩ := in_range_facts hout
    rcases hh : find_header (splitlines text) ((start_line - 1).toNat)
        (simpleName class_name) with _ | hidx
    · rw [extractLines_header_none _ _ _ _ hout hh, length_pySlice]
      exact ⟨by omega, fun _ => by omega⟩
    · rcases he : find_end (splitlines text) hidx with _ | eidx
      · have hlt := find_header_lt_length hh
        rw [extractLines_end_none _ _ _ _ _ hout hh he, length_pySlice]
        exact ⟨by omega, fun _ => by omega⟩
      · have hb := find_end_bounds he
        rw [extractLines_exact _ _ _ _ _ _ hout hh he, List.length_take, length_pySlice]
        exact ⟨by omega, fun _ => by omega⟩

/-- C7 witness: the 20-line `Foo` scenario with the default cap 400. -/
theorem C7_bounded_nonempty_witness :
    (extractLines fooText 12 "Foo" 400).length ≤ 400 ∧
      (fooText ≠ "" → 1 ≤ (extractLines fooText 12 "Foo" 400).length) :=
  C7_bounded_nonempty fooText 12 "Foo" 400 (by decide)

/-- C8 counterexample: the claim that `excerpt_strategy` takes distinct
values per search/fallback path is false: an out-of-range input and an
exact-match input produce records with the same strategy string, which is
neither `exact-match` nor `out-of-range-fallback`. -/
theorem C8_strategy_constant_counterexample :
    extractPath fiftyText 9999 "Foo" = ExtractPath.outOfRange ∧
    extractPath fooText 12 "Foo" = ExtractPath.exactMatch ∧
    (mkCaseObj "c1" "p" "f.java" "pkg" "Foo" "GodClass" "r" fiftyText 9999 400).excerpt_strategy =
      (mkCaseObj "c2" "p" "f.java" "pkg" "Foo" "GodClass" "r" fooText 12 400).excerpt_strategy ∧
    (mkCaseObj "c2" "p" "f.java" "pkg" "Foo" "GodClass" "r" fooText 12 400).excerpt_strategy ≠
      "exact-match" ∧
    (mkCaseObj "c1" "p" "f.java" "pkg" "Foo" "GodClass" "r" fiftyText 9999 400).excerpt_strategy ≠
      "out-of-range-fallback" :=
  ⟨by decide, by decide, rfl, by decide, by decide⟩

/-- C8 (amended): every record emitted by `main` carries the constant
`excerpt_strategy` string `"line_based_class_block"`, regardless of which
search/fallback path produced the excerpt. -/
theorem C8_strategy_constant_amended (case_id project file_path package class_name
    smell_type detector_reason text : String) (start_line : Int) (loc_limit : Nat) :
    (mkCaseObj case_id project file_path package class_name smell_type detector_reason
        text start_line loc_limit).excerpt_strategy = "line_based_class_block" := rfl

/-- C9: Totality / graceful degradation: for every input the extractor
returns the newline-join of a bounded suffix-window of the split lines
(every dead end is absorbed into a positional-window result). -/
theorem C9_total_graceful (text : String) (start_line : Int) (class_name : String)
    (loc_limit : Nat) :
    ∃ lo len, len ≤ loc_limit ∧
      extract_class_block text start_line class_name loc_limit =
        "\n".intercalate (((splitlines text).drop lo).take len) := by
  obtain ⟨lo, len, h1, h2⟩ := extractLines_shape text start_line class_name loc_limit
  exact ⟨lo, len, h1, by rw [extract_class_block, h2]⟩

/-- C10: Contiguous-slice invariant: on every path the returned string is
the newline-join of a contiguous slice `lines[i:j]` of the line-split of
the text, with lines verbatim, in order, none skipped inside the range and
none synthesized. -/
theorem C10_contiguous_slice (text : String) (start_line : Int) (class_name : String)
    (loc_limit : Nat) :
    ∃ i j, i ≤ j ∧ j ≤ (splitlines text).length ∧
      extract_class_block text start_line class_name loc_limit =
        "\n".intercalate (pySlice (splitlines text) i j) := by
  obtain ⟨lo, len, -, h2⟩ := extractLines_shape text start_line class_name loc_limit
  obtain ⟨i, j, hij, hjn, heq⟩ := drop_take_pySlice (splitlines text) lo len
  exact ⟨i, j, hij, hjn, by rw [extract_class_block, h2, heq]⟩
